import Mathlib

/-!
Verification of the frame-classification pipeline in src/main.cpp.

The development shallowly embeds the pixel-level routines of the program:

* images are byte buffers, modelled as functions `ℕ → ℕ` from flat byte
  offsets to byte values (a `uchar` value is a natural number at most 255);
  the nested for loops of the C code become left folds over the list of
  byte offsets they visit, in loop order;
* the single-precision float arithmetic of `change_contrast` and
  `to_grayscale` is modelled exactly: `f32` rounds a rational to the
  nearest IEEE-754 binary32 value (ties to even), and every `float`
  operation of the source is one correctly rounded rational operation.
  The values arising here are far from the overflow and subnormal ranges,
  so this is exactly the binary32 semantics of the source;
* `screen_test` is modelled over the reals: at the inputs the claims are
  about, its float computations (other than `sqrtf`) are exact, and
  `sqrtf` is modelled by `Real.sqrt`;
* C strings are lists of characters (no embedded NUL); the one
  out-of-bounds byte that `trim` reads past the terminating NUL is
  modelled as a non-whitespace byte, see `trim` below;
* the per-screen latch logic and the priority dispatch of `main`'s frame
  loop become pure state-passing functions on booleans.
-/

/-! ### Exact binary32 arithmetic over ℚ -/

/-- Fuel-driven binary logarithm on naturals: `log2fuel fuel n = ⌊log₂ n⌋`
for `1 ≤ n < 2 ^ fuel` (structural recursion so that kernel reduction,
hence `decide`, works). -/
def log2fuel : ℕ → ℕ → ℕ
  | 0, _ => 0
  | fuel + 1, n => if 2 ≤ n then log2fuel fuel (n / 2) + 1 else 0

/-- Floor of the binary logarithm of a positive rational, valid for
arguments in `[2 ^ (-60), 2 ^ 60)`, which covers every value arising in
the pixel computations below. -/
def floorLog2 (x : ℚ) : ℤ := (log2fuel 128 (⌊x * ((2 : ℚ) ^ 60)⌋).toNat : ℤ) - 60

/-- Round a rational to the nearest integer, ties to even. -/
def roundHalfEven (q : ℚ) : ℤ :=
  let f := ⌊q⌋
  let r := q - (f : ℚ)
  if r < 1/2 then f
  else if 1/2 < r then f + 1
  else if f % 2 = 0 then f else f + 1

/-- Multiply a rational by an integer power of two. -/
def mulPow2 (x : ℚ) (k : ℤ) : ℚ :=
  if 0 ≤ k then x * ((2 : ℚ) ^ k.toNat) else x / ((2 : ℚ) ^ (-k).toNat)

/-- Round a nonnegative rational to the nearest IEEE-754 binary32 value
(24 significant bits, ties to even). -/
def f32core (x : ℚ) : ℚ :=
  if x = 0 then 0
  else
    let e : ℤ := floorLog2 x
    mulPow2 ((roundHalfEven (mulPow2 x (23 - e)) : ℤ) : ℚ) (e - 23)

/-- Round a rational to the nearest IEEE-754 binary32 value. -/
def f32 (x : ℚ) : ℚ := if x < 0 then -f32core (-x) else f32core x

/-- Correctly rounded binary32 multiplication. -/
def fmul (a b : ℚ) : ℚ := f32 (a * b)

/-- Correctly rounded binary32 addition. -/
def fadd (a b : ℚ) : ℚ := f32 (a + b)

/-- Correctly rounded binary32 subtraction. -/
def fsub (a b : ℚ) : ℚ := f32 (a - b)

/-- Correctly rounded binary32 division. -/
def fdiv (a b : ℚ) : ℚ := f32 (a / b)

/-- The binary32 value of the literal `0.299f` (src/main.cpp line 187). -/
def c299 : ℚ := f32 (299/1000)

/-- The binary32 value of the literal `0.587f` (src/main.cpp line 187). -/
def c587 : ℚ := f32 (587/1000)

/-- The binary32 value of the literal `0.114f` (src/main.cpp line 187). -/
def c114 : ℚ := f32 (114/1000)

/-- The C cast `(int)` applied to a float value: truncation toward zero. -/
def cTrunc (x : ℚ) : ℤ := if 0 ≤ x then ⌊x⌋ else ⌈x⌉

/-- `clamp` from src/main.cpp lines 107-109:
`return std::min(std::max(a, lower), upper);`. -/
def clamp (a lower upper : ℤ) : ℤ := min (max a lower) upper

/-! ### Byte-buffer transforms (src/main.cpp lines 157-191)

A buffer is a function from flat byte offsets to byte values.  The three
transforms walk the offsets `y * Stride + Channels * x + channel` in loop
order and update one byte (or one pixel triple) at a time. -/

/-- Mutate one byte of a buffer with the per-byte operation `f`. -/
def updateAt (f : ℕ → ℕ) (img : ℕ → ℕ) (i : ℕ) : ℕ → ℕ :=
  fun j => if j = i then f (img j) else img j

/-- The byte offsets visited by the loops of `invert_image` and
`change_contrast`, in loop order: `Row = Image + y * Stride`,
`Pixel = Row + Channels * x + Channel`. -/
def byteOffsets (W H C S : ℕ) : List ℕ :=
  (List.range H).flatMap (fun y =>
    (List.range W).flatMap (fun x =>
      (List.range C).map (fun c => y * S + C * x + c)))

/-- The body of `invert_image` (src/main.cpp line 163): `*Pixel = 255 - *Pixel`. -/
def invByte (v : ℕ) : ℕ := 255 - v

/-- `invert_image` from src/main.cpp lines 157-167. -/
def invert_image (img : ℕ → ℕ) (W H C S : ℕ) : ℕ → ℕ :=
  (byteOffsets W H C S).foldl (updateAt invByte) img

/-- The float value computed at src/main.cpp line 175:
`float Value = Contrast * (Pixel[0] / 255.f - 1.f) + 1.f;`. -/
def contrastValue (contrast : ℚ) (p : ℕ) : ℚ :=
  fadd (fmul contrast (fsub (fdiv (p : ℚ) 255) 1)) 1

/-- The byte stored at src/main.cpp line 176:
`*Pixel = clamp((int)((Value + 0.5f) * 255.f), 0x00, 0xff);`. -/
def contrastByte (contrast : ℚ) (p : ℕ) : ℕ :=
  (clamp (cTrunc (fmul (fadd (contrastValue contrast p) (1/2)) 255)) 0 255).toNat

/-- `change_contrast` from src/main.cpp lines 169-180. -/
def change_contrast (img : ℕ → ℕ) (W H C S : ℕ) (contrast : ℚ) : ℕ → ℕ :=
  (byteOffsets W H C S).foldl (updateAt (contrastByte contrast)) img

/-- The luma byte computed at src/main.cpp line 187, with `r = Pixel[2]`,
`g = Pixel[1]`, `b = Pixel[0]`:
`uchar Value = clamp((int)(0.299f * Pixel[2] + 0.587f * Pixel[1] + 0.114f * Pixel[0]), 0, 255);`. -/
def grayValue (r g b : ℕ) : ℕ :=
  (clamp (cTrunc (fadd (fadd (fmul c299 (r : ℚ)) (fmul c587 (g : ℚ))) (fmul c114 (b : ℚ)))) 0 255).toNat

/-- The 13 gray levels `v` for which the binary32 luma sum of the uniform
pixel `(v, v, v)` truncates to `v - 1` instead of `v`. -/
def grayFixup : List ℕ := [37, 61, 74, 93, 111, 122, 148, 186, 215, 222, 233, 244, 253]

/-- The first byte offsets of the pixels visited by `to_grayscale`, in loop
order: `Pixel = Row + Channels * x`. -/
def pixBases (W H C S : ℕ) : List ℕ :=
  (List.range H).flatMap (fun y => (List.range W).map (fun x => y * S + C * x))

/-- One iteration of the pixel loop of `to_grayscale`
(src/main.cpp lines 186-188): read the triple at `b`, `b+1`, `b+2` and
store the luma value into all three bytes. -/
def grayAt (img : ℕ → ℕ) (b : ℕ) : ℕ → ℕ :=
  fun j =>
    if j = b ∨ j = b + 1 ∨ j = b + 2
    then grayValue (img (b + 2)) (img (b + 1)) (img b)
    else img j

/-- `to_grayscale` from src/main.cpp lines 182-191. -/
def to_grayscale (img : ℕ → ℕ) (W H C S : ℕ) : ℕ → ℕ :=
  (pixBases W H C S).foldl grayAt img

/-! ### Text post-processing (src/main.cpp lines 111-133) -/

/-- C `isspace` on the default locale: space, tab, newline, vertical tab,
form feed, carriage return. -/
def isSpaceC (c : Char) : Bool :=
  c = Char.ofNat 32 || c = Char.ofNat 9 || c = Char.ofNat 10 ||
  c = Char.ofNat 11 || c = Char.ofNat 12 || c = Char.ofNat 13

/-- `replace_char` from src/main.cpp lines 111-120: replace every
occurrence of `toReplace` in the string by `replaceWith`. -/
def replace_char (s : List Char) (toReplace replaceWith : Char) : List Char :=
  s.map (fun c => if c = toReplace then replaceWith else c)

/-- The backward pointer scan of `trim` (src/main.cpp line 129):
`while (Ptr > Str && !isspace(Ptr[0])) Ptr--;` — starting from position
`p`, decrement while the current character is not whitespace, stopping at
position 0 at the latest.  Returns the final pointer position. -/
def backScan (a : ℕ → Char) : ℕ → ℕ
  | 0 => 0
  | p + 1 => if isSpaceC (a (p + 1)) then p + 1 else backScan a p

/-- `trim` from src/main.cpp lines 122-133.  After skipping leading
whitespace the code sets `Ptr` one position past the terminating NUL and
scans backwards while the byte under it is not whitespace; it returns the
characters strictly before the final position.  Position `length` holds
the NUL terminator and position `length + 1` is the byte past the NUL
(formally out of bounds in the C code); both are modelled by the non-
whitespace default `Char.ofNat 0` of `List.getD`. -/
def trim (s : List Char) : List Char :=
  let s1 := s.dropWhile isSpaceC
  s1.take (backScan (fun p => s1.getD p (Char.ofNat 0)) (s1.length + 1))

/-! ### Screen latch and frame dispatch (src/main.cpp lines 394-415) -/

/-- One per-tag latch update, from the loop body of `main`: on a matching
frame the indicator is set and the scan action fires exactly if the
indicator was clear; on a non-matching frame the indicator is cleared.
Returns `(new indicator, action fired)`. -/
def latchStep (had matched : Bool) : Bool × Bool :=
  if matched then (true, !had) else (false, false)

/-- Iterate `latchStep` over a sequence of per-frame match verdicts,
returning the sequence of fired signals. -/
def latchSignals (had : Bool) : List Bool → List Bool
  | [] => []
  | m :: ms => (latchStep had m).2 :: latchSignals (latchStep had m).1 ms

/-- The two screen-entered event kinds emitted by the frame loop
(`EVENT_STIGMATA_SCREEN` and `EVENT_LINEUP_SCREEN`). -/
inductive screen_event_t where
  | stigmata
  | lineup
deriving DecidableEq

/-- The two per-screen indicators of `state_t` (src/main.cpp lines 48-49). -/
structure pipeline_state_t where
  hadStigmata : Bool
  hadLineup : Bool
deriving DecidableEq

/-- One iteration of the frame loop of `main` (src/main.cpp lines 394-415),
as a function of the two per-fingerprint verdicts.  The local `check`
starts true; a successful Stigmata test clears it, so the Lineup test is
short-circuited (its `else` branch then clears `HadLineupScreenIndicator`).
Returns the updated indicators and the screen-entered events emitted. -/
def processFrame (st : pipeline_state_t) (stigmataMatch lineupMatch : Bool) :
    pipeline_state_t × List screen_event_t :=
  if stigmataMatch then
    (⟨true, false⟩, if !st.hadStigmata then [screen_event_t.stigmata] else [])
  else if lineupMatch then
    (⟨false, true⟩, if !st.hadLineup then [screen_event_t.lineup] else [])
  else
    (⟨false, false⟩, [])

/-! ### The fingerprint classifier `screen_test` (src/main.cpp lines 193-224)

At the inputs the claims quantify over, every float operation of
`screen_test` except `sqrtf` is exact (the deltas evaluate to 0, 1 or -1
exactly in binary32), so the computation is modelled over the reals, with
`sqrtf` modelled by `Real.sqrt`. -/

/-- `square` from src/main.cpp lines 103-105. -/
noncomputable def square (x : ℝ) : ℝ := x * x

/-- One `test_pixel_t` (src/main.cpp lines 52-56): a coordinate and the
expected color; `Color0` is compared against the R channel (`Pixel[2]`),
`Color1` against G (`Pixel[1]`), `Color2` against B (`Pixel[0]`). -/
structure test_pixel_t where
  x : ℕ
  y : ℕ
  Color0 : ℕ
  Color1 : ℕ
  Color2 : ℕ
deriving DecidableEq

/-- The per-channel delta of src/main.cpp lines 203-205:
`2.f * (0xff + observed - expected) / 510.f - 1.f`. -/
noncomputable def channelDelta (observed expected : ℕ) : ℝ :=
  2 * (255 + (observed : ℝ) - (expected : ℝ)) / 510 - 1

/-- The summand added to `Indicator` for one test pixel
(src/main.cpp lines 196-207); `count` is `TestPixelCount` and the pixel
base offset is `3 * (TargetSize.width * y + x)`. -/
noncomputable def anchorTerm (pixels : ℕ → ℕ) (width count : ℕ) (tp : test_pixel_t) : ℝ :=
  Real.sqrt
      (square (channelDelta (pixels (3 * (width * tp.y + tp.x) + 2)) tp.Color0) +
        square (channelDelta (pixels (3 * (width * tp.y + tp.x) + 1)) tp.Color1) +
        square (channelDelta (pixels (3 * (width * tp.y + tp.x))) tp.Color2)) /
    (3 * (count : ℝ))

/-- The final value of `Indicator` in `screen_test`. -/
noncomputable def screenIndicator (pixels : ℕ → ℕ) (width : ℕ) (tps : List test_pixel_t) : ℝ :=
  (tps.map (anchorTerm pixels width tps.length)).sum

/-- The confidence `1.f - Indicator` of src/main.cpp line 209. -/
noncomputable def screen_confidence (pixels : ℕ → ℕ) (width : ℕ) (tps : List test_pixel_t) : ℝ :=
  1 - screenIndicator pixels width tps

/-- The result of `screen_test`: `(1.f - Indicator) >= ThresholdConfidence`. -/
def screen_test (pixels : ℕ → ℕ) (width : ℕ) (tps : List test_pixel_t) (threshold : ℝ) : Prop :=
  screen_confidence pixels width tps ≥ threshold

/-- Maximal channel-wise distance between an observed and an expected
channel value: 255 observed where 0 is expected, or 0 observed where 255
is expected. -/
def maxChannelPair (observed expected : ℕ) : Prop :=
  (observed = 255 ∧ expected = 0) ∨ (observed = 0 ∧ expected = 255)

/-! ### Concrete inputs used by witnesses and counterexamples -/

/-- A 1-pixel frame whose only pixel is `(B, G, R) = (3, 5, 7)`. -/
def pixExact : ℕ → ℕ := fun i => if i = 0 then 3 else if i = 1 then 5 else if i = 2 then 7 else 0

/-- A test pixel at the origin expecting `(R, G, B) = (7, 5, 3)`. -/
def tpExact : test_pixel_t := ⟨0, 0, 7, 5, 3⟩

/-- An all-white frame: every byte is 255. -/
def pixWhite : ℕ → ℕ := fun _ => 255

/-- A test pixel at the origin expecting black on every channel. -/
def tpBlack : test_pixel_t := ⟨0, 0, 0, 0, 0⟩

/-- An all-zero 1-by-1 three-channel buffer. -/
def bufZero : ℕ → ℕ := fun _ => 0

/-- A constant buffer with every byte 10. -/
def bufTen : ℕ → ℕ := fun _ => 10

/-- The 1-by-1 three-channel buffer with pixel `(B, G, R) = (0, 0, 124)`:
its binary32 luma is 37, one of the gray levels of `grayFixup`. -/
def bufRed124 : ℕ → ℕ := fun j => if j = 2 then 124 else 0

/-- The character list "ab c": content with an interior space and no
leading or trailing whitespace. -/
def strAbSpC : List Char := [Char.ofNat 97, Char.ofNat 98, Char.ofNat 32, Char.ofNat 99]

/-- The character list "ab": the first two characters of "ab c". -/
def strAb : List Char := [Char.ofNat 97, Char.ofNat 98]

/-- The one-character list "a", a whitespace-free recognizer result. -/
def strA : List Char := [Char.ofNat 97]

/-! ### Latch lemmas -/

/-- After one latch update the stored indicator equals the verdict just
processed. -/
theorem latchStep_fst (had m : Bool) : (latchStep had m).1 = m := by
  cases m <;> simp [latchStep]

/-- `latchSignals` preserves length. -/
theorem latchSignals_length (s : Bool) (ms : List Bool) :
    (latchSignals s ms).length = ms.length := by
  induction ms generalizing s with
  | nil => rfl
  | cons m ms ih => simp [latchSignals, ih]

/-- Splitting a verdict sequence: after the prefix, the latch state is the
last verdict of the prefix. -/
theorem latchSignals_append (s : Bool) (xs ys : List Bool) :
    latchSignals s (xs ++ ys) = latchSignals s xs ++ latchSignals (xs.getLastD s) ys := by
  induction xs generalizing s with
  | nil => rfl
  | cons x xs ih =>
      simp only [List.cons_append, latchSignals, latchStep_fst, List.append_eq,
        List.getLastD_cons, ih]

/-- On a constant run of verdicts the latch fires at most at the first
frame: the signal list is `v && !s` followed by `false`s. -/
theorem latchSignals_replicate_succ (s v : Bool) (n : ℕ) :
    latchSignals s (List.replicate (n + 1) v) = (v && !s) :: List.replicate n false := by
  induction n generalizing s with
  | zero => cases v <;> cases s <;> rfl
  | succ n ih =>
      have h : List.replicate (n + 2) v = v :: List.replicate (n + 1) v := rfl
      rw [h]
      show (latchStep s v).2 :: latchSignals (latchStep s v).1 (List.replicate (n + 1) v) = _
      rw [latchStep_fst, ih v]
      cases v <;> cases s <;> simp [latchStep, List.replicate]

/-- Claim C3: for every verdict sequence containing a constant run of
`n ≥ 1` frames, the latch (started cleared, as `HadStigmataScreenIndicator`
is) fires exactly once inside the run when the run is a matching run that
is maximal on the left (the preceding frame, if any, did not match), and
zero times inside a non-matching run. -/
theorem C3_latch_single_entry (pre post : List Bool) (n : ℕ) (hn : 0 < n) (v : Bool) :
    (((latchSignals false (pre ++ (List.replicate n v ++ post))).drop pre.length).take n).count
        true = if v && !(pre.getLastD false) then 1 else 0 := by
  obtain ⟨m, rfl⟩ : ∃ m, n = m + 1 := ⟨n - 1, by omega⟩
  rw [latchSignals_append]
  have hlen : (latchSignals false pre).length = pre.length := latchSignals_length _ _
  rw [List.drop_left' hlen, latchSignals_append]
  have hlen2 : (latchSignals (pre.getLastD false) (List.replicate (m + 1) v)).length = m + 1 := by
    rw [latchSignals_length, List.length_replicate]
  rw [List.take_left' hlen2, latchSignals_replicate_succ]
  cases v <;> cases pre.getLastD false <;>
    simp [List.count_cons, List.count_replicate]

/-- Witness for C3 at a concrete input: one maximal run of 3 matching
frames preceded by a non-matching frame produces exactly one fired signal. -/
theorem C3_latch_single_entry_witness :
    0 < 3 ∧
      (((latchSignals false ([false] ++ (List.replicate 3 true ++ [true, false]))).drop
            ([false] : List Bool).length).take 3).count true
        = if true && !(([false] : List Bool).getLastD false) then 1 else 0 :=
  ⟨by decide, C3_latch_single_entry [false] [true, false] 3 (by decide) true⟩

/-- Claim C5 counterexample: on a frame where both fingerprints match
(both latches previously idle), the Lineup verdict is `true`, but the
frame loop stores `false` into `HadLineupScreenIndicator` because the
successful Stigmata test cleared `check` and short-circuited the Lineup
test.  The claimed invariant `latch state = this frame's verdict` is
therefore false at this input. -/
theorem C5_counterexample :
    (processFrame ⟨false, false⟩ true true).1.hadLineup ≠ true := by decide

/-- Claim C5, amended: after each frame `HadStigmataScreenIndicator`
equals the frame's Stigmata verdict, but `HadLineupScreenIndicator`
equals the Lineup verdict conjoined with the failure of the
higher-priority Stigmata test — on frames where Stigmata also matched it
is cleared regardless of the Lineup verdict. -/
theorem C5_latch_state (st : pipeline_state_t) (mS mL : Bool) :
    (processFrame st mS mL).1.hadStigmata = mS ∧
      (processFrame st mS mL).1.hadLineup = (!mS && mL) := by
  cases mS <;> cases mL <;> simp [processFrame]

/-- Claim C6: on a frame where both fingerprints match while both latches
are idle, the frame loop emits exactly one screen-entered event, namely
the Stigmata one (the fingerprint checked first), never two. -/
theorem C6_priority_single_event (st : pipeline_state_t)
    (h1 : st.hadStigmata = false) (h2 : st.hadLineup = false) :
    (processFrame st true true).2 = [screen_event_t.stigmata] ∧
      ((processFrame st true true).2).length = 1 := by
  obtain ⟨a, b⟩ := st
  cases a <;> cases b <;> simp_all [processFrame]

/-- Witness for C6 at the concrete idle state. -/
theorem C6_priority_single_event_witness :
    ((⟨false, false⟩ : pipeline_state_t).hadStigmata = false) ∧
      ((processFrame ⟨false, false⟩ true true).2 = [screen_event_t.stigmata] ∧
        ((processFrame ⟨false, false⟩ true true).2).length = 1) :=
  ⟨rfl, C6_priority_single_event ⟨false, false⟩ rfl rfl⟩

/-! ### Text post-processing claims -/

/-- If no position ever holds a whitespace character, the backward scan
of `trim` runs all the way down to position 0. -/
theorem backScan_eq_zero (a : ℕ → Char) (h : ∀ q, isSpaceC (a q) = false) :
    ∀ p, backScan a p = 0 := by
  intro p
  induction p with
  | zero => rfl
  | succ p ih => simp [backScan, h (p + 1), ih]

/-- Claim C10: a non-empty recognizer result containing no whitespace at
all is wholly discarded by `trim`: the backward scan, which moves while
the current byte is not whitespace, reaches position 0 and the function
returns the empty string. -/
theorem C10_trim_whitespace_free (s : List Char) (hne : s ≠ [])
    (h : ∀ c ∈ s, isSpaceC c = false) : trim s = [] := by
  have hdrop : s.dropWhile isSpaceC = s := by
    cases s with
    | nil => rfl
    | cons c cs => simp [List.dropWhile_cons, h c (List.mem_cons_self c cs)]
  simp only [trim, hdrop]
  rw [backScan_eq_zero, List.take_zero]
  intro q
  by_cases hq : q < s.length
  · exact h _ (List.getD_eq_getElem s (Char.ofNat 0) hq ▸ List.getElem_mem hq)
  · rw [List.getD_eq_default s (Char.ofNat 0) (by omega)]
    decide

/-- Witness for C10 at the concrete whitespace-free input "a". -/
theorem C10_trim_whitespace_free_witness :
    strA ≠ [] ∧ trim strA = [] :=
  ⟨by decide, C10_trim_whitespace_free strA (by decide) (by decide)⟩

/-- Claim C4 (code bug): on the recognizer result "ab c" — no interior
newline, no leading or trailing whitespace — the claim says the
post-processing `trim(replace_char(...))` returns "ab c" unchanged, but
the code returns "ab": the backward loop of `trim` walks over the
trailing non-whitespace characters (its guard is `!isspace`, so it stops
at the last whitespace, not after it) and everything from the last
interior space onward is discarded. -/
theorem C4_trim_cuts_at_last_space :
    trim (replace_char strAbSpC (Char.ofNat 10) (Char.ofNat 32)) = strAb ∧
      trim (replace_char strAbSpC (Char.ofNat 10) (Char.ofNat 32)) ≠ strAbSpC := by
  constructor <;> decide

/-! ### Classifier claims -/

/-- A channel delta vanishes when the observed value equals the expected
one: `2 * (255 + c - c) / 510 - 1 = 0`. -/
theorem channelDelta_self (c : ℕ) : channelDelta c c = 0 := by
  rw [channelDelta]
  norm_num

/-- Claim C7: on a frame whose anchor pixels all exactly equal their
expected colors, every delta is zero, the Indicator sums to zero, the
confidence `1 - Indicator` is exactly 1, and `screen_test` reports a
match for every threshold at most 1. -/
theorem C7_exact_match (pixels : ℕ → ℕ) (width : ℕ) (tps : List test_pixel_t)
    (h : ∀ tp ∈ tps,
      pixels (3 * (width * tp.y + tp.x) + 2) = tp.Color0 ∧
      pixels (3 * (width * tp.y + tp.x) + 1) = tp.Color1 ∧
      pixels (3 * (width * tp.y + tp.x)) = tp.Color2) :
    screen_confidence pixels width tps = 1 ∧
      ∀ th : ℝ, th ≤ 1 → screen_test pixels width tps th := by
  have hz : screenIndicator pixels width tps = 0 := by
    refine List.sum_eq_zero ?_
    intro x hx
    obtain ⟨tp, htp, rfl⟩ := List.mem_map.mp hx
    obtain ⟨h0, h1, h2⟩ := h tp htp
    rw [anchorTerm, h0, h1, h2, channelDelta_self, channelDelta_self, channelDelta_self]
    simp [square]
  constructor
  · rw [screen_confidence, hz]
    ring
  · intro th hth
    show screen_confidence pixels width tps ≥ th
    rw [screen_confidence, hz]
    linarith

/-- Witness for C7 at a concrete one-anchor fingerprint matching the
frame exactly, with the threshold 0.97 used by `main`. -/
theorem C7_exact_match_witness :
    screen_confidence pixExact 1920 [tpExact] = 1 ∧
      screen_test pixExact 1920 [tpExact] ((97 : ℝ) / 100) := by
  have h := C7_exact_match pixExact 1920 [tpExact] (by decide)
  exact ⟨h.1, h.2 _ (by norm_num)⟩

/-- `√3 < 3`. -/
theorem sqrt_three_lt_three : Real.sqrt 3 < 3 := by
  have h := Real.sq_sqrt (by norm_num : (0 : ℝ) ≤ 3)
  nlinarith [Real.sqrt_nonneg 3]

/-- A channel at maximal distance contributes a squared delta of exactly 1. -/
theorem square_channelDelta_max {obs exp : ℕ} (h : maxChannelPair obs exp) :
    square (channelDelta obs exp) = 1 := by
  rcases h with ⟨h1, h2⟩ | ⟨h1, h2⟩ <;> subst h1 <;> subst h2 <;>
    · rw [square, channelDelta]
      norm_num

/-- On a frame whose anchor pixels are all at maximal channel-wise
distance from the expected colors, every anchor contributes
`√3 / (3 * count)` to the Indicator, so the confidence is `1 - √3/3`. -/
theorem screenConfidence_max_distance (pixels : ℕ → ℕ) (width : ℕ)
    (tps : List test_pixel_t) (hne : tps ≠ [])
    (h : ∀ tp ∈ tps,
      maxChannelPair (pixels (3 * (width * tp.y + tp.x) + 2)) tp.Color0 ∧
      maxChannelPair (pixels (3 * (width * tp.y + tp.x) + 1)) tp.Color1 ∧
      maxChannelPair (pixels (3 * (width * tp.y + tp.x))) tp.Color2) :
    screen_confidence pixels width tps = 1 - Real.sqrt 3 / 3 := by
  have hn : (tps.length : ℝ) ≠ 0 := by
    have := List.length_pos.mpr hne
    positivity
  have hterm : ∀ x ∈ tps.map (anchorTerm pixels width tps.length),
      x = Real.sqrt 3 / (3 * (tps.length : ℝ)) := by
    intro x hx
    obtain ⟨tp, htp, rfl⟩ := List.mem_map.mp hx
    obtain ⟨h0, h1, h2⟩ := h tp htp
    rw [anchorTerm, square_channelDelta_max h0, square_channelDelta_max h1,
      square_channelDelta_max h2]
    norm_num
  have hsum := List.sum_eq_card_nsmul _ _ hterm
  rw [screen_confidence, screenIndicator, hsum, List.length_map, nsmul_eq_mul]
  have hmul : (tps.length : ℝ) * (Real.sqrt 3 / (3 * (tps.length : ℝ)))
      = Real.sqrt 3 / 3 := by
    field_simp
    ring
  rw [hmul]

/-- Claim C1 counterexample: with a single black anchor and an all-white
frame (maximal channel-wise distance on all channels), the confidence is
`1 - √3/3 ≈ 0.423`, not `0.0` as the claim states. -/
theorem C1_counterexample : screen_confidence pixWhite 1920 [tpBlack] ≠ 0 := by
  have hc := screenConfidence_max_distance pixWhite 1920 [tpBlack] (by simp)
    (by simp [maxChannelPair, pixWhite, tpBlack])
  rw [hc]
  have h3 := sqrt_three_lt_three
  intro heq
  linarith

/-- Claim C1, amended: a frame with every anchor pixel at maximal
channel-wise distance yields confidence exactly `1 - √3/3` (≈ 0.4226),
which is nonzero — not `0.0`: the per-anchor Euclidean norm `√3` is
divided by `3 * count`, not by `√3 * count`, so the Indicator sums to
`√3/3`, not 1. -/
theorem C1_max_distance (pixels : ℕ → ℕ) (width : ℕ)
    (tps : List test_pixel_t) (hne : tps ≠ [])
    (h : ∀ tp ∈ tps,
      maxChannelPair (pixels (3 * (width * tp.y + tp.x) + 2)) tp.Color0 ∧
      maxChannelPair (pixels (3 * (width * tp.y + tp.x) + 1)) tp.Color1 ∧
      maxChannelPair (pixels (3 * (width * tp.y + tp.x))) tp.Color2) :
    screen_confidence pixels width tps = 1 - Real.sqrt 3 / 3 ∧
      screen_confidence pixels width tps ≠ 0 := by
  have hc := screenConfidence_max_distance pixels width tps hne h
  refine ⟨hc, ?_⟩
  rw [hc]
  have h3 := sqrt_three_lt_three
  intro heq
  linarith

/-- Witness for the amended C1 at the concrete all-white frame and a
one-anchor all-black fingerprint. -/
theorem C1_max_distance_witness :
    ([tpBlack] : List test_pixel_t) ≠ [] ∧
      (screen_confidence pixWhite 1920 [tpBlack] = 1 - Real.sqrt 3 / 3 ∧
        screen_confidence pixWhite 1920 [tpBlack] ≠ 0) :=
  ⟨by decide,
    C1_max_distance pixWhite 1920 [tpBlack] (by decide)
      (by simp [maxChannelPair, pixWhite, tpBlack])⟩

/-! ### Byte-buffer fold lemmas -/

/-- After folding a per-byte update over a list of offsets, each byte
holds `f` iterated once per occurrence of its offset in the list. -/
theorem foldl_updateAt_apply (f : ℕ → ℕ) (offs : List ℕ) (img : ℕ → ℕ) (j : ℕ) :
    (offs.foldl (updateAt f) img) j = f^[offs.count j] (img j) := by
  induction offs generalizing img with
  | nil => rfl
  | cons a offs ih =>
      show (offs.foldl (updateAt f) (updateAt f img a)) j = _
      rw [ih]
      by_cases hj : j = a
      · subst hj
        simp only [updateAt, eq_self_iff_true, if_true, List.count_cons_self,
          Function.iterate_succ_apply]
      · simp only [updateAt, if_neg hj, List.count_cons_of_ne hj]

/-- Inverting a byte twice gives the byte back (`255 - (255 - v) = v` for
byte values). -/
theorem invByte_invByte {v : ℕ} (hv : v ≤ 255) : invByte (invByte v) = v := by
  simp only [invByte]
  omega

/-- An even number of byte inversions is the identity on byte values. -/
theorem invByte_iterate_two_mul (k : ℕ) {v : ℕ} (hv : v ≤ 255) :
    invByte^[k + k] v = v := by
  induction k generalizing v with
  | zero => rfl
  | succ k ih =>
      have h2 : (k + 1) + (k + 1) = ((k + k) + 1) + 1 := by omega
      rw [h2, Function.iterate_succ_apply, Function.iterate_succ_apply,
        invByte_invByte hv]
      exact ih hv

/-- Claim C8: for every buffer of byte values and all widths, heights,
channel counts and strides — including overlapping rows — applying
`invert_image` twice returns a buffer bit-identical to the original:
every byte is inverted the same number of times by each pass, and an even
number of inversions is the identity. -/
theorem C8_invert_involution (img : ℕ → ℕ) (W H C S : ℕ) (hb : ∀ j, img j ≤ 255) :
    ∀ j, invert_image (invert_image img W H C S) W H C S j = img j := by
  intro j
  rw [invert_image, invert_image, foldl_updateAt_apply, foldl_updateAt_apply,
    ← Function.iterate_add_apply]
  exact invByte_iterate_two_mul _ (hb j)

/-- Witness for C8 on a concrete 2-by-2 three-channel buffer. -/
theorem C8_invert_involution_witness :
    invert_image (invert_image bufTen 2 2 3 6) 2 2 3 6 5 = bufTen 5 :=
  C8_invert_involution bufTen 2 2 3 6 (fun _ => by norm_num [bufTen]) 5

/-- Pairwise relation over a flat map, from pairwise relations inside
each block and between blocks. -/
theorem pairwise_flatMap_intro {α β : Type} {R : β → β → Prop} {l : List α}
    {f : α → List β} (h1 : ∀ a ∈ l, (f a).Pairwise R)
    (h2 : l.Pairwise (fun a b => ∀ x ∈ f a, ∀ y ∈ f b, R x y)) :
    (l.flatMap f).Pairwise R := by
  induction l with
  | nil => simp
  | cons a l ih =>
      rw [List.flatMap_cons, List.pairwise_append]
      refine ⟨h1 a (List.mem_cons_self a l),
        ih (fun b hb => h1 b (List.mem_cons_of_mem a hb)) h2.of_cons, ?_⟩
      intro x hx y hy
      obtain ⟨b, hb, hyb⟩ := List.mem_flatMap.mp hy
      exact List.rel_of_pairwise_cons h2 hb x hx y hyb

/-- When one row fits inside the stride (`C * W ≤ S`), the byte offsets
visited by the per-byte loops are strictly increasing, hence pairwise
distinct. -/
theorem byteOffsets_sorted (W H C S : ℕ) (hS : C * W ≤ S) :
    (byteOffsets W H C S).Pairwise (· < ·) := by
  rw [byteOffsets]
  apply pairwise_flatMap_intro
  · intro y _
    apply pairwise_flatMap_intro
    · intro x _
      rw [List.pairwise_map]
      exact (List.pairwise_lt_range C).imp (fun h => by omega)
    · refine (List.pairwise_lt_range W).imp ?_
      intro x1 x2 hx12 v1 hv1 v2 hv2
      obtain ⟨c1, hc1, rfl⟩ := List.mem_map.mp hv1
      obtain ⟨c2, hc2, rfl⟩ := List.mem_map.mp hv2
      rw [List.mem_range] at hc1 hc2
      have hm : C * (x1 + 1) ≤ C * x2 := Nat.mul_le_mul (Nat.le_refl C) hx12
      rw [Nat.mul_succ] at hm
      omega
  · refine (List.pairwise_lt_range H).imp ?_
    intro y1 y2 hy12 v1 hv1 v2 hv2
    obtain ⟨x1, hx1, hm1⟩ := List.mem_flatMap.mp hv1
    obtain ⟨c1, hc1, rfl⟩ := List.mem_map.mp hm1
    obtain ⟨x2, hx2, hm2⟩ := List.mem_flatMap.mp hv2
    obtain ⟨c2, hc2, rfl⟩ := List.mem_map.mp hm2
    rw [List.mem_range] at hx1 hc1 hx2 hc2
    have hm1 : C * (x1 + 1) ≤ C * W := Nat.mul_le_mul (Nat.le_refl C) hx1
    rw [Nat.mul_succ] at hm1
    have hm2 : (y1 + 1) * S ≤ y2 * S := Nat.mul_le_mul hy12 (Nat.le_refl S)
    rw [Nat.succ_mul] at hm2
    omega

/-- The visit list of the per-byte loops has no duplicates when one row
fits inside the stride. -/
theorem byteOffsets_nodup (W H C S : ℕ) (hS : C * W ≤ S) :
    (byteOffsets W H C S).Nodup :=
  (byteOffsets_sorted W H C S hS).imp (fun h => Nat.ne_of_lt h)

/-- Membership in the visit list of the per-byte loops. -/
theorem mem_byteOffsets_iff {W H C S j : ℕ} :
    j ∈ byteOffsets W H C S ↔ ∃ y < H, ∃ x < W, ∃ c < C, j = y * S + C * x + c := by
  simp only [byteOffsets, List.mem_flatMap, List.mem_map, List.mem_range]
  constructor
  · rintro ⟨y, hy, x, hx, c, hc, rfl⟩
    exact ⟨y, hy, x, hx, c, hc, rfl⟩
  · rintro ⟨y, hy, x, hx, c, hc, rfl⟩
    exact ⟨y, hy, x, hx, c, hc, rfl⟩

/-- Successive pixel base offsets of `to_grayscale` are at least `C`
apart when one row fits inside the stride. -/
theorem pixBases_sep (W H C S : ℕ) (hS : C * W ≤ S) :
    (pixBases W H C S).Pairwise (fun a b => a + C ≤ b) := by
  rw [pixBases]
  apply pairwise_flatMap_intro
  · intro y _
    rw [List.pairwise_map]
    refine (List.pairwise_lt_range W).imp ?_
    intro x1 x2 hx12
    have hm : C * (x1 + 1) ≤ C * x2 := Nat.mul_le_mul (Nat.le_refl C) hx12
    rw [Nat.mul_succ] at hm
    omega
  · refine (List.pairwise_lt_range H).imp ?_
    intro y1 y2 hy12 v1 hv1 v2 hv2
    obtain ⟨x1, hx1, rfl⟩ := List.mem_map.mp hv1
    obtain ⟨x2, hx2, rfl⟩ := List.mem_map.mp hv2
    rw [List.mem_range] at hx1 hx2
    have hm1 : C * (x1 + 1) ≤ C * W := Nat.mul_le_mul (Nat.le_refl C) hx1
    rw [Nat.mul_succ] at hm1
    have hm2 : (y1 + 1) * S ≤ y2 * S := Nat.mul_le_mul hy12 (Nat.le_refl S)
    rw [Nat.succ_mul] at hm2
    omega

/-- A byte offset of a three-channel buffer lies in the visit list of the
per-byte loops exactly when it lies in the triple of some visited pixel
base. -/
theorem mem_byteOffsets_triple {W H S j : ℕ} :
    j ∈ byteOffsets W H 3 S ↔ ∃ b ∈ pixBases W H 3 S, j = b ∨ j = b + 1 ∨ j = b + 2 := by
  rw [mem_byteOffsets_iff]
  simp only [pixBases, List.mem_flatMap, List.mem_map, List.mem_range]
  constructor
  · rintro ⟨y, hy, x, hx, c, hc, rfl⟩
    exact ⟨y * S + 3 * x, ⟨y, hy, x, hx, rfl⟩, by omega⟩
  · rintro ⟨b, ⟨y, hy, x, hx, rfl⟩, ho⟩
    rcases ho with rfl | rfl | rfl
    · exact ⟨y, hy, x, hx, 0, by omega, by omega⟩
    · exact ⟨y, hy, x, hx, 1, by omega, by omega⟩
    · exact ⟨y, hy, x, hx, 2, by omega, by omega⟩

/-- A pixel-loop fold leaves untouched every byte lying in no visited
triple. -/
theorem foldl_grayAt_untouched (l : List ℕ) (img : ℕ → ℕ) (j : ℕ)
    (h : ∀ b ∈ l, ¬(j = b ∨ j = b + 1 ∨ j = b + 2)) :
    (l.foldl grayAt img) j = img j := by
  induction l generalizing img with
  | nil => rfl
  | cons a l ih =>
      show (l.foldl grayAt (grayAt img a)) j = img j
      rw [ih _ (fun b hb => h b (List.mem_cons_of_mem a hb))]
      simp only [grayAt]
      rw [if_neg (h a (List.mem_cons_self a l))]

/-- When the visited pixel bases are at least 3 apart, each visited
triple ends up holding the luma value of its original three bytes. -/
theorem foldl_grayAt_triple (l : List ℕ) (hsep : l.Pairwise (fun a b => a + 3 ≤ b))
    (img : ℕ → ℕ) {b : ℕ} (hb : b ∈ l) {o : ℕ} (ho : o < 3) :
    (l.foldl grayAt img) (b + o) = grayValue (img (b + 2)) (img (b + 1)) (img b) := by
  induction l generalizing img with
  | nil => cases hb
  | cons a l ih =>
      show (l.foldl grayAt (grayAt img a)) (b + o) = _
      rcases List.mem_cons.mp hb with rfl | hbl
      · rw [foldl_grayAt_untouched]
        · simp only [grayAt]
          rw [if_pos (by omega)]
        · intro b2 hb2
          have := List.rel_of_pairwise_cons hsep hb2
          omega
      · have hab : a + 3 ≤ b := List.rel_of_pairwise_cons hsep hbl
        rw [ih hsep.of_cons _ hbl]
        have e2 : grayAt img a (b + 2) = img (b + 2) := by
          simp only [grayAt]
          rw [if_neg (by omega)]
        have e1 : grayAt img a (b + 1) = img (b + 1) := by
          simp only [grayAt]
          rw [if_neg (by omega)]
        have e0 : grayAt img a b = img b := by
          simp only [grayAt]
          rw [if_neg (by omega)]
        rw [e2, e1, e0]

/-- The luma byte is always a byte value. -/
theorem grayValue_le (r g b : ℕ) : grayValue r g b ≤ 255 := by
  rw [grayValue]
  exact Int.toNat_le.mpr (min_le_right _ _)

section

attribute [local semireducible] Rat.add Rat.mul Rat.sub Rat.inv

set_option maxRecDepth 100000

set_option maxHeartbeats 8000000

/-- For every byte value, the contrast transform with factor 1.0 computes
`trunc((v/255 + 0.5) * 255) = v + 127` and clamps: a brightening by 127,
not the identity.  Verified exhaustively over the exact binary32
semantics of src/main.cpp lines 175-176. -/
theorem contrastByte_one : ∀ v < 256, contrastByte 1 v = min (v + 127) 255 := by decide

/-- For an already-uniform gray pixel `(v, v, v)`, the binary32 luma sum
truncates back to `v` except at the 13 gray levels of `grayFixup`, where
rounding leaves the sum just below `v` and truncation yields `v - 1`.
Verified exhaustively over the exact binary32 semantics of
src/main.cpp line 187. -/
theorem grayValue_uniform : ∀ v < 256, grayValue v v v = if v ∈ grayFixup then v - 1 else v := by
  decide

/-- Claim C2 counterexample: contrast factor 1.0 is not the identity,
and not by a mere rounding wobble: the zero byte of an all-zero 1-by-1
buffer is mapped to 127 (`trunc((0/255 + 0.5) * 255) = 127`), not 0. -/
theorem C2_counterexample : change_contrast bufZero 1 1 3 3 1 0 ≠ bufZero 0 := by decide

/-- Claim C9 counterexample: `to_grayscale` is not idempotent.  The
1-by-1 buffer with pixel `(B, G, R) = (0, 0, 124)` becomes gray level 37
after one pass, but a second pass darkens it to 36: the binary32 luma of
`(37, 37, 37)` is `37 - 2^-17` before the final rounding, which truncates
to 36. -/
theorem C9_counterexample :
    to_grayscale (to_grayscale bufRed124 1 1 3 3) 1 1 3 3 0
      ≠ to_grayscale bufRed124 1 1 3 3 0 := by decide

end

/-- Claim C2, amended: for factor 1.0 the contrast transform is not the
identity; every visited byte `v` becomes `min (v + 127) 255` (the
`+ 0.5` shift in the formula brightens each channel by 127 before
clamping), and bytes outside the visited rectangle are unchanged. -/
theorem C2_contrast_one (img : ℕ → ℕ) (W H C S : ℕ) (hS : C * W ≤ S)
    (hb : ∀ j, img j ≤ 255) :
    ∀ j, change_contrast img W H C S 1 j
      = if j ∈ byteOffsets W H C S then min (img j + 127) 255 else img j := by
  intro j
  rw [change_contrast, foldl_updateAt_apply]
  by_cases hj : j ∈ byteOffsets W H C S
  · rw [List.count_eq_one_of_mem (byteOffsets_nodup W H C S hS) hj, if_pos hj,
      Function.iterate_one]
    exact contrastByte_one (img j) (by have := hb j; omega)
  · rw [List.count_eq_zero.mpr hj, if_neg hj, Function.iterate_zero_apply]

/-- Witness for the amended C2 on a concrete all-zero 1-by-1 buffer. -/
theorem C2_contrast_one_witness :
    3 * 1 ≤ 3 ∧
      change_contrast bufZero 1 1 3 3 1 0
        = if 0 ∈ byteOffsets 1 1 3 3 then min (bufZero 0 + 127) 255 else bufZero 0 :=
  ⟨by decide, C2_contrast_one bufZero 1 1 3 3 (by decide) (fun _ => by norm_num [bufZero]) 0⟩

/-- Claim C9, amended: applying `to_grayscale` twice on a three-channel
buffer whose rows fit the stride equals applying it once, except on the
bytes of pixels whose first-pass gray level lies in `grayFixup`, where
the second pass yields one less.  In particular double application is not
extensionally equal to single application. -/
theorem C9_grayscale_double (img : ℕ → ℕ) (W H S : ℕ) (hS : 3 * W ≤ S) :
    ∀ j, to_grayscale (to_grayscale img W H 3 S) W H 3 S j
      = if j ∈ byteOffsets W H 3 S ∧ to_grayscale img W H 3 S j ∈ grayFixup
        then to_grayscale img W H 3 S j - 1
        else to_grayscale img W H 3 S j := by
  intro j
  have hsep : (pixBases W H 3 S).Pairwise (fun a b => a + 3 ≤ b) :=
    pixBases_sep W H 3 S hS
  by_cases hj : ∃ b ∈ pixBases W H 3 S, j = b ∨ j = b + 1 ∨ j = b + 2
  · obtain ⟨b, hbmem, ho⟩ := hj
    obtain ⟨o, ho3, rfl⟩ : ∃ o, o < 3 ∧ j = b + o := by
      rcases ho with rfl | rfl | rfl
      · exact ⟨0, by omega, by omega⟩
      · exact ⟨1, by omega, rfl⟩
      · exact ⟨2, by omega, rfl⟩
    have hpass1 : ∀ o2, o2 < 3 → to_grayscale img W H 3 S (b + o2)
        = grayValue (img (b + 2)) (img (b + 1)) (img b) := by
      intro o2 ho2
      exact foldl_grayAt_triple _ hsep _ hbmem ho2
    have hpass1b : to_grayscale img W H 3 S b
        = grayValue (img (b + 2)) (img (b + 1)) (img b) := by
      have := hpass1 0 (by omega)
      simpa using this
    have hLHS : to_grayscale (to_grayscale img W H 3 S) W H 3 S (b + o)
        = grayValue (to_grayscale img W H 3 S (b + 2))
            (to_grayscale img W H 3 S (b + 1)) (to_grayscale img W H 3 S b) :=
      foldl_grayAt_triple _ hsep _ hbmem ho3
    rw [hLHS, hpass1 2 (by omega), hpass1 1 (by omega), hpass1b, hpass1 o ho3]
    have hmem : b + o ∈ byteOffsets W H 3 S :=
      mem_byteOffsets_triple.mpr ⟨b, hbmem, by omega⟩
    have hle : grayValue (img (b + 2)) (img (b + 1)) (img b) < 256 := by
      have := grayValue_le (img (b + 2)) (img (b + 1)) (img b)
      omega
    rw [grayValue_uniform _ hle]
    by_cases hf : grayValue (img (b + 2)) (img (b + 1)) (img b) ∈ grayFixup
    · rw [if_pos hf, if_pos ⟨hmem, hf⟩]
    · rw [if_neg hf, if_neg (by intro hc; exact hf hc.2)]
  · have hnt : ∀ b ∈ pixBases W H 3 S, ¬(j = b ∨ j = b + 1 ∨ j = b + 2) := by
      intro b hb hcon
      exact hj ⟨b, hb, hcon⟩
    have hLHS : to_grayscale (to_grayscale img W H 3 S) W H 3 S j
        = to_grayscale img W H 3 S j :=
      foldl_grayAt_untouched _ _ _ hnt
    have hjmem : j ∉ byteOffsets W H 3 S := by
      rw [mem_byteOffsets_triple]
      rintro ⟨b, hb, ho⟩
      exact hnt b hb ho
    rw [hLHS, if_neg (by intro hc; exact hjmem hc.1)]

/-- Witness for the amended C9 on a concrete all-zero 1-by-1 buffer. -/
theorem C9_grayscale_double_witness :
    3 * 1 ≤ 3 ∧
      to_grayscale (to_grayscale bufZero 1 1 3 3) 1 1 3 3 0
        = if 0 ∈ byteOffsets 1 1 3 3 ∧ to_grayscale bufZero 1 1 3 3 0 ∈ grayFixup
          then to_grayscale bufZero 1 1 3 3 0 - 1
          else to_grayscale bufZero 1 1 3 3 0 :=
  ⟨by decide, C9_grayscale_double bufZero 1 1 3 (by decide) 0⟩
